import Mathlib

/-!
Verification of the "cache + order-statistics" core of the C-Programs repository:
* `src/stl_examples/sliding_window_median.cpp` (class `SlidingMedian`)
* `src/stl_examples/lru_cache.cpp` (class `LRUCache`)

A C++ `std::multiset<long long>` is modelled as a sorted `List ℤ`: iteration
order of a multiset is nondecreasing, `*prev(s.end())` is the last element of
that list, `*s.begin()` is the head, `s.insert` is insertion at the sorted
position, and `s.erase(s.find(x))` removes one occurrence of `x`.
`double` results of `median()` are modelled as exact rationals; every value in
the programs is small enough that the `double` arithmetic is exact.
-/

namespace CPrograms

/-- One C++ multiset, as its sorted list of elements. -/
abbrev MS := List ℤ

/-- `*prev(s.end())` — the largest element of a nonempty multiset
(junk value 0 on the empty multiset, where the C++ expression is invalid). -/
def mMax (l : MS) : ℤ := l.getLast?.getD 0

/-- `*s.begin()` — the smallest element of a nonempty multiset
(junk value 0 on the empty multiset). -/
def mMin (l : MS) : ℤ := l.head?.getD 0

/-- `s.insert(x)` on a multiset: insert at the sorted position. -/
def msInsert (x : ℤ) (l : MS) : MS := List.orderedInsert (· ≤ ·) x l

/-- State of class `SlidingMedian`: the two multisets `lo` and `hi`. -/
structure SlidingMedian where
  lo : MS
  hi : MS
deriving DecidableEq, Repr

/-- The freshly constructed (empty) `SlidingMedian`. -/
def SlidingMedian.empty : SlidingMedian := ⟨[], []⟩

/-- First loop of `SlidingMedian::balance`, with an explicit fuel bound:
`while (lo.size() > hi.size() + 1) { move *prev(lo.end()) from lo to hi }`.
Each iteration shortens `lo` by one, and the guard fails on an empty `lo`, so
fuel `lo.length` (see `balanceLo`) can never run out before the guard fails. -/
def balanceLoAux : ℕ → MS → MS → MS × MS
  | 0, lo, hi => (lo, hi)
  | fuel + 1, lo, hi =>
    if hi.length + 1 < lo.length then
      balanceLoAux fuel lo.dropLast (msInsert (mMax lo) hi)
    else (lo, hi)

/-- First loop of `SlidingMedian::balance`. -/
def balanceLo (lo hi : MS) : MS × MS := balanceLoAux lo.length lo hi

/-- Second loop of `SlidingMedian::balance`, with an explicit fuel bound:
`while (lo.size() < hi.size()) { move *hi.begin() from hi to lo }`.
Each iteration shortens `hi` by one, and the guard fails on an empty `hi`, so
fuel `hi.length` (see `balanceHi`) can never run out before the guard fails. -/
def balanceHiAux : ℕ → MS → MS → MS × MS
  | 0, lo, hi => (lo, hi)
  | fuel + 1, lo, hi =>
    if lo.length < hi.length then
      balanceHiAux fuel (msInsert (mMin hi) lo) hi.tail
    else (lo, hi)

/-- Second loop of `SlidingMedian::balance`. -/
def balanceHi (lo hi : MS) : MS × MS := balanceHiAux hi.length lo hi

/-- `SlidingMedian::balance`: the two loops in sequence. -/
def SlidingMedian.balance (s : SlidingMedian) : SlidingMedian :=
  let p := balanceLo s.lo s.hi
  let q := balanceHi p.1 p.2
  ⟨q.1, q.2⟩

/-- The placement step of `SlidingMedian::insert` (before the `balance()` call):
`if (lo.empty() || x <= *prev(lo.end())) lo.insert(x); else hi.insert(x);`. -/
def SlidingMedian.place (s : SlidingMedian) (x : ℤ) : SlidingMedian :=
  if s.lo = [] ∨ x ≤ mMax s.lo then ⟨msInsert x s.lo, s.hi⟩
  else ⟨s.lo, msInsert x s.hi⟩

/-- `SlidingMedian::insert`. -/
def SlidingMedian.insert (s : SlidingMedian) (x : ℤ) : SlidingMedian :=
  (s.place x).balance

/-- The removal step of `SlidingMedian::erase` (before the `balance()` call):
erase one occurrence of `x` from `lo` if present there, else from `hi` if
present there, else do nothing. -/
def SlidingMedian.remove (s : SlidingMedian) (x : ℤ) : SlidingMedian :=
  if x ∈ s.lo then ⟨s.lo.erase x, s.hi⟩
  else if x ∈ s.hi then ⟨s.lo, s.hi.erase x⟩
  else s

/-- `SlidingMedian::erase`. -/
def SlidingMedian.erase (s : SlidingMedian) (x : ℤ) : SlidingMedian :=
  (s.remove x).balance

/-- `SlidingMedian::median`, with `double` modelled as `ℚ`. -/
def SlidingMedian.median (s : SlidingMedian) : ℚ :=
  if s.lo = [] ∧ s.hi = [] then 0
  else if s.hi.length < s.lo.length then (mMax s.lo : ℚ)
  else ((mMax s.lo : ℚ) + (mMin s.hi : ℚ)) / 2

/-- The loop of `main` in `sliding_window_median.cpp`, with fuel: for each
index `i < nums.length`, insert `nums[i]`; once `i >= k-1`, record `median()`
and erase `nums[i-k+1]`. Fuel `nums.length - i` cannot run out before the loop
condition `i < nums.length` fails, since `i` increases by one per iteration. -/
def slidingLoop (nums : List ℤ) (k : ℕ) : ℕ → ℕ → SlidingMedian → List ℚ
  | 0, _, _ => []
  | fuel + 1, i, s =>
    if i < nums.length then
      let s1 := s.insert (nums.getD i 0)
      if k - 1 ≤ i then
        s1.median :: slidingLoop nums k fuel (i + 1) (s1.erase (nums.getD (i + 1 - k) 0))
      else
        slidingLoop nums k fuel (i + 1) s1
    else []

/-- The medians printed by `main` for input `nums` and window size `k`. -/
def slidingMedians (nums : List ℤ) (k : ℕ) : List ℚ :=
  slidingLoop nums k nums.length 0 SlidingMedian.empty

/-- The sentinel returned by `LRUCache::get` for a missing key (`return -1`). -/
def NOT_FOUND : ℤ := -1

/-- State of class `LRUCache`: the capacity `cap` (a C++ `int`), the recency
list `dll` (front = most recently used) whose nodes hold `(key, value)` pairs,
and `mp`, the key set of the `unordered_map` index. In the C++ code `mp` maps
each key to the list iterator of its node; in this embedding an iterator is
refined to "the unique node of `dll` carrying that key", so only the key set
of `mp` remains as data. -/
structure LRUCache where
  cap : ℤ
  dll : List (ℤ × ℤ)
  mp : Finset ℤ

/-- The constructor `LRUCache(int capacity): cap(capacity) {}`. -/
def mkLRU (capacity : ℤ) : LRUCache := ⟨capacity, [], ∅⟩

/-- The node of `dll` that `mp`'s iterator for `key` designates: the first
(under the key-uniqueness invariant, the only) node whose key is `key`. -/
def LRUCache.node (c : LRUCache) (key : ℤ) : Option (ℤ × ℤ) :=
  c.dll.find? (fun e => e.1 == key)

/-- `LRUCache::get`: on a hit, splice the node to the front and return its
value; on a miss return `NOT_FOUND` and leave the cache unchanged. The inner
`none` branch is unreachable under the index/list correspondence invariant
(in C++ the iterator stored in `mp` always points into `dll`). -/
def LRUCache.get (c : LRUCache) (key : ℤ) : LRUCache × ℤ :=
  if key ∈ c.mp then
    match c.node key with
    | some e => (⟨c.cap, e :: c.dll.eraseP (fun e => e.1 == key), c.mp⟩, e.2)
    | none => (c, NOT_FOUND)
  else (c, NOT_FOUND)

/-- `LRUCache::put`: if the key is present, overwrite the node's value and
splice it to the front; otherwise, if `dll.size() == cap`, evict the back node
and erase its key from `mp` (in C++, `dll.back()` on an empty list is
undefined behaviour; the model's `none` branch makes `pop_back` on the empty
list a no-op), then push the new node to the front and index it. -/
def LRUCache.put (c : LRUCache) (key value : ℤ) : LRUCache :=
  if key ∈ c.mp then
    ⟨c.cap, (key, value) :: c.dll.eraseP (fun e => e.1 == key), c.mp⟩
  else
    let c1 : LRUCache :=
      if (c.dll.length : ℤ) = c.cap then
        match c.dll.getLast? with
        | some last => ⟨c.cap, c.dll.dropLast, c.mp.erase last.1⟩
        | none => ⟨c.cap, c.dll.dropLast, c.mp⟩
      else c
    ⟨c1.cap, (key, value) :: c1.dll, insert key c1.mp⟩

/-- One operation against the cache. -/
inductive CacheOp where
  | get (key : ℤ)
  | put (key value : ℤ)

/-- Run a sequence of operations against a fresh cache of capacity `cap`,
collecting the value returned by each `get`. -/
def runCacheAux (c : LRUCache) (outs : List ℤ) : List CacheOp → LRUCache × List ℤ
  | [] => (c, outs)
  | CacheOp.get k :: ops =>
      let r := c.get k
      runCacheAux r.1 (outs ++ [r.2]) ops
  | CacheOp.put k v :: ops => runCacheAux (c.put k v) outs ops

/-- Final cache state after running `ops` on a fresh cache of capacity `cap`. -/
def runCache (cap : ℤ) (ops : List CacheOp) : LRUCache :=
  (runCacheAux (mkLRU cap) [] ops).1

/-- The `get` results produced while running `ops` on a fresh cache. -/
def runCacheOutputs (cap : ℤ) (ops : List CacheOp) : List ℤ :=
  (runCacheAux (mkLRU cap) [] ops).2

/-- The documented invariant of `SlidingMedian`, together with the sortedness
of the two lists that is automatic for C++ multisets: `lo` and `hi` are
sorted, every value in `lo` is at most every value in `hi`, and
`hi.size() <= lo.size() <= hi.size() + 1`. -/
def SInv (s : SlidingMedian) : Prop :=
  s.lo.Sorted (· ≤ ·) ∧ s.hi.Sorted (· ≤ ·)
  ∧ (∀ a ∈ s.lo, ∀ b ∈ s.hi, a ≤ b)
  ∧ s.hi.length ≤ s.lo.length ∧ s.lo.length ≤ s.hi.length + 1

/-- One iteration of the first `balance` loop: move `*prev(lo.end())` from
`lo` into `hi`. -/
def moveLoToHi (s : SlidingMedian) : SlidingMedian :=
  ⟨s.lo.dropLast, msInsert (mMax s.lo) s.hi⟩

/-- One iteration of the second `balance` loop: move `*hi.begin()` from `hi`
into `lo`. -/
def moveHiToLo (s : SlidingMedian) : SlidingMedian :=
  ⟨msInsert (mMin s.hi) s.lo, s.hi.tail⟩

/-- One operation against the tracker. -/
inductive TrackerOp where
  | ins (x : ℤ)
  | del (x : ℤ)

/-- Run a sequence of insert/erase operations on a tracker state. -/
def runTrackerFrom (s : SlidingMedian) (ops : List TrackerOp) : SlidingMedian :=
  ops.foldl
    (fun s op =>
      match op with
      | TrackerOp.ins x => s.insert x
      | TrackerOp.del x => s.erase x)
    s

/-- Run a sequence of insert/erase operations on the fresh (empty) tracker:
exactly the states a `SlidingMedian` object can reach. -/
def runTracker (ops : List TrackerOp) : SlidingMedian :=
  runTrackerFrom SlidingMedian.empty ops

/-- The documented invariant of `LRUCache`: the keys on the recency list are
pairwise distinct, the index `mp` holds exactly the keys on the recency list,
and both have the same size, which never exceeds the capacity. -/
def CInv (c : LRUCache) : Prop :=
  (c.dll.map Prod.fst).Nodup
  ∧ (∀ k, k ∈ c.mp ↔ k ∈ c.dll.map Prod.fst)
  ∧ c.mp.card = c.dll.length
  ∧ (c.dll.length : ℤ) ≤ c.cap

end CPrograms

namespace CPrograms

/-! ### Facts about sorted lists as multisets -/

theorem mMax_eq_getLast (l : MS) (h : l ≠ []) : mMax l = l.getLast h := by
  simp [mMax, List.getLast?_eq_getLast l h]

theorem mMax_mem {l : MS} (h : l ≠ []) : mMax l ∈ l := by
  rw [mMax_eq_getLast l h]; exact List.getLast_mem h

theorem le_mMax {l : MS} (hs : l.Sorted (· ≤ ·)) {a : ℤ} (ha : a ∈ l) :
    a ≤ mMax l := by
  have hne : l ≠ [] := List.ne_nil_of_mem ha
  rw [mMax_eq_getLast l hne]
  have hp : (l.dropLast ++ [l.getLast hne]).Pairwise (· ≤ ·) := by
    rw [List.dropLast_append_getLast hne]; exact hs
  rw [List.pairwise_append] at hp
  have ha' : a ∈ l.dropLast ++ [l.getLast hne] := by
    rw [List.dropLast_append_getLast hne]; exact ha
  rcases List.mem_append.mp ha' with h' | h'
  · exact hp.2.2 a h' _ (List.mem_singleton_self _)
  · rw [List.mem_singleton.mp h']

theorem mMin_eq_head (l : MS) (h : l ≠ []) : mMin l = l.head h := by
  simp [mMin, List.head?_eq_head h]

theorem mMin_mem {l : MS} (h : l ≠ []) : mMin l ∈ l := by
  rw [mMin_eq_head l h]; exact List.head_mem h

theorem mMin_le {l : MS} (hs : l.Sorted (· ≤ ·)) {a : ℤ} (ha : a ∈ l) :
    mMin l ≤ a := by
  have hne : l ≠ [] := List.ne_nil_of_mem ha
  rw [mMin_eq_head l hne]
  have hp : (l.head hne :: l.tail).Pairwise (· ≤ ·) := by
    rw [List.head_cons_tail l hne]; exact hs
  rw [List.pairwise_cons] at hp
  have ha' : a ∈ l.head hne :: l.tail := by
    rw [List.head_cons_tail l hne]; exact ha
  rcases List.mem_cons.mp ha' with h' | h'
  · exact h'.ge
  · exact hp.1 a h'

theorem msInsert_sorted {l : MS} (hs : l.Sorted (· ≤ ·)) (x : ℤ) :
    (msInsert x l).Sorted (· ≤ ·) :=
  List.Sorted.orderedInsert x l hs

theorem msInsert_perm (x : ℤ) (l : MS) : List.Perm (msInsert x l) (x :: l) :=
  List.perm_orderedInsert _ x l

theorem msInsert_length (x : ℤ) (l : MS) :
    (msInsert x l).length = l.length + 1 :=
  List.orderedInsert_length _ l x

theorem mem_msInsert {a x : ℤ} {l : MS} : a ∈ msInsert x l ↔ a = x ∨ a ∈ l := by
  rw [(msInsert_perm x l).mem_iff, List.mem_cons]

/-! ### The balance loops on nearly balanced states -/

theorem balanceLoAux_self (fuel : ℕ) (lo hi : MS)
    (h : lo.length ≤ hi.length + 1) : balanceLoAux fuel lo hi = (lo, hi) := by
  cases fuel with
  | zero => rfl
  | succ n => simp only [balanceLoAux]; rw [if_neg (by omega)]

theorem balanceLo_self (lo hi : MS) (h : lo.length ≤ hi.length + 1) :
    balanceLo lo hi = (lo, hi) :=
  balanceLoAux_self _ lo hi h

theorem balanceLo_step (lo hi : MS) (h : lo.length = hi.length + 2) :
    balanceLo lo hi = (lo.dropLast, msInsert (mMax lo) hi) := by
  unfold balanceLo
  rw [h]
  simp only [balanceLoAux]
  rw [if_pos (by omega)]
  rw [if_neg (by rw [msInsert_length, List.length_dropLast, h]; omega)]

theorem balanceHiAux_self (fuel : ℕ) (lo hi : MS)
    (h : hi.length ≤ lo.length) : balanceHiAux fuel lo hi = (lo, hi) := by
  cases fuel with
  | zero => rfl
  | succ n => simp only [balanceHiAux]; rw [if_neg (by omega)]

theorem balanceHi_self (lo hi : MS) (h : hi.length ≤ lo.length) :
    balanceHi lo hi = (lo, hi) :=
  balanceHiAux_self _ lo hi h

theorem balanceHi_step (lo hi : MS) (h : hi.length = lo.length + 1) :
    balanceHi lo hi = (msInsert (mMin hi) lo, hi.tail) := by
  unfold balanceHi
  rw [h]
  simp only [balanceHiAux]
  rw [if_pos (by omega)]
  exact balanceHiAux_self _ _ _
    (by rw [msInsert_length, List.length_tail, h]; omega)

theorem balance_self {s : SlidingMedian} (h1 : s.hi.length ≤ s.lo.length)
    (h2 : s.lo.length ≤ s.hi.length + 1) : s.balance = s := by
  cases s with
  | mk lo hi =>
    simp only [SlidingMedian.balance]
    rw [balanceLo_self lo hi h2, balanceHi_self lo hi h1]

/-- On any state whose sides are sorted and cross-ordered and whose sizes are
off by at most one insertion or deletion, `balance` restores the full
invariant and permutes nothing in or out of the union of the two sides. -/
theorem balance_spec {lo hi : MS}
    (hslo : lo.Sorted (· ≤ ·)) (hshi : hi.Sorted (· ≤ ·))
    (hord : ∀ a ∈ lo, ∀ b ∈ hi, a ≤ b)
    (h1 : hi.length ≤ lo.length + 1) (h2 : lo.length ≤ hi.length + 2) :
    SInv (SlidingMedian.balance ⟨lo, hi⟩)
    ∧ List.Perm
        ((SlidingMedian.balance ⟨lo, hi⟩).lo ++ (SlidingMedian.balance ⟨lo, hi⟩).hi)
        (lo ++ hi) := by
  by_cases hA : lo.length = hi.length + 2
  · have hlon : lo ≠ [] := by intro e; rw [e] at hA; simp at hA
    have hbal : SlidingMedian.balance ⟨lo, hi⟩
        = ⟨lo.dropLast, msInsert (mMax lo) hi⟩ := by
      simp only [SlidingMedian.balance]
      rw [balanceLo_step lo hi hA]
      rw [balanceHi_self _ _
        (by rw [msInsert_length, List.length_dropLast, hA]; omega)]
    rw [hbal]
    have hsub : ∀ a ∈ lo.dropLast, a ∈ lo :=
      fun a ha => (List.dropLast_sublist lo).subset ha
    refine ⟨⟨hslo.sublist (List.dropLast_sublist lo), msInsert_sorted hshi _,
      ?_, ?_, ?_⟩, ?_⟩
    · intro a ha b hb
      rcases mem_msInsert.mp hb with rfl | hb'
      · exact le_mMax hslo (hsub a ha)
      · exact hord a (hsub a ha) b hb'
    · simp only [msInsert_length, List.length_dropLast]; omega
    · simp only [msInsert_length, List.length_dropLast]; omega
    · have e1 : lo.dropLast ++ (mMax lo :: hi) = lo ++ hi := by
        conv_rhs => rw [← List.dropLast_append_getLast hlon]
        rw [List.append_assoc, mMax_eq_getLast lo hlon]
        rfl
      have p1 := (msInsert_perm (mMax lo) hi).append_left lo.dropLast
      rw [e1] at p1
      exact p1
  · by_cases hB : hi.length = lo.length + 1
    · have hhin : hi ≠ [] := by intro e; rw [e] at hB; simp at hB
      have hbal : SlidingMedian.balance ⟨lo, hi⟩
          = ⟨msInsert (mMin hi) lo, hi.tail⟩ := by
        simp only [SlidingMedian.balance]
        rw [balanceLo_self lo hi (by omega)]
        rw [balanceHi_step lo hi hB]
      rw [hbal]
      have hsub : ∀ b ∈ hi.tail, b ∈ hi :=
        fun b hb => (List.tail_sublist hi).subset hb
      refine ⟨⟨msInsert_sorted hslo _, hshi.sublist (List.tail_sublist hi),
        ?_, ?_, ?_⟩, ?_⟩
      · intro a ha b hb
        rcases mem_msInsert.mp ha with rfl | ha'
        · exact mMin_le hshi (hsub b hb)
        · exact hord a ha' b (hsub b hb)
      · simp only [msInsert_length, List.length_tail]; omega
      · simp only [msInsert_length, List.length_tail]; omega
      · have e1 : lo ++ (mMin hi :: hi.tail) = lo ++ hi := by
          rw [mMin_eq_head hi hhin, List.head_cons_tail hi hhin]
        have p1 := (msInsert_perm (mMin hi) lo).append_right hi.tail
        have p2 : List.Perm ((mMin hi :: lo) ++ hi.tail) (lo ++ hi) := by
          rw [List.cons_append, ← e1]
          exact List.perm_middle.symm
        exact p1.trans p2
    · have hb1 : hi.length ≤ lo.length := by omega
      have hb2 : lo.length ≤ hi.length + 1 := by omega
      rw [balance_self (s := ⟨lo, hi⟩) hb1 hb2]
      exact ⟨⟨hslo, hshi, hord, hb1, hb2⟩, List.Perm.refl _⟩

/-- `insert` preserves the invariant and adds exactly `x` to the union. -/
theorem sinv_insert {s : SlidingMedian} (h : SInv s) (x : ℤ) :
    SInv (s.insert x)
    ∧ List.Perm ((s.insert x).lo ++ (s.insert x).hi) (x :: (s.lo ++ s.hi)) := by
  obtain ⟨hlo, hhi, hord, hle1, hle2⟩ := h
  cases s with
  | mk lo hi =>
    replace hlo : lo.Sorted (· ≤ ·) := hlo
    replace hhi : hi.Sorted (· ≤ ·) := hhi
    replace hord : ∀ a ∈ lo, ∀ b ∈ hi, a ≤ b := hord
    replace hle1 : hi.length ≤ lo.length := hle1
    replace hle2 : lo.length ≤ hi.length + 1 := hle2
    rw [SlidingMedian.insert]
    by_cases hc : lo = [] ∨ x ≤ mMax lo
    · have hplace : SlidingMedian.place ⟨lo, hi⟩ x = ⟨msInsert x lo, hi⟩ := by
        simp only [SlidingMedian.place]; rw [if_pos hc]
      rw [hplace]
      have hord' : ∀ a ∈ msInsert x lo, ∀ b ∈ hi, a ≤ b := by
        intro a ha b hb
        by_cases hnil : lo = []
        · rw [hnil] at hle1
          simp only [List.length_nil, Nat.le_zero, List.length_eq_zero] at hle1
          rw [hle1] at hb
          simp at hb
        · rcases mem_msInsert.mp ha with rfl | ha'
          · have hax : a ≤ mMax lo := hc.resolve_left hnil
            exact le_trans hax (hord _ (mMax_mem hnil) b hb)
          · exact hord a ha' b hb
      obtain ⟨hinv, hperm⟩ := balance_spec (msInsert_sorted hlo x) hhi hord'
        (by rw [msInsert_length]; omega) (by rw [msInsert_length]; omega)
      refine ⟨hinv, hperm.trans ?_⟩
      have p1 := (msInsert_perm x lo).append_right hi
      rw [List.cons_append] at p1
      exact p1
    · have hplace : SlidingMedian.place ⟨lo, hi⟩ x = ⟨lo, msInsert x hi⟩ := by
        simp only [SlidingMedian.place]; rw [if_neg hc]
      rw [hplace]
      push_neg at hc
      have hord' : ∀ a ∈ lo, ∀ b ∈ msInsert x hi, a ≤ b := by
        intro a ha b hb
        rcases mem_msInsert.mp hb with rfl | hb'
        · exact le_trans (le_mMax hlo ha) (le_of_lt hc.2)
        · exact hord a ha b hb'
      obtain ⟨hinv, hperm⟩ := balance_spec hlo (msInsert_sorted hhi x) hord'
        (by rw [msInsert_length]; omega) (by rw [msInsert_length]; omega)
      refine ⟨hinv, hperm.trans ?_⟩
      exact ((msInsert_perm x hi).append_left lo).trans List.perm_middle

/-- `erase` preserves the invariant; it removes exactly one occurrence of `x`
from the union when `x` is present, and is the identity when it is absent. -/
theorem sinv_erase {s : SlidingMedian} (h : SInv s) (x : ℤ) :
    SInv (s.erase x)
    ∧ (x ∈ s.lo ∨ x ∈ s.hi →
        List.Perm (x :: ((s.erase x).lo ++ (s.erase x).hi)) (s.lo ++ s.hi))
    ∧ (x ∉ s.lo → x ∉ s.hi → s.erase x = s) := by
  obtain ⟨hlo, hhi, hord, hle1, hle2⟩ := h
  cases s with
  | mk lo hi =>
    replace hlo : lo.Sorted (· ≤ ·) := hlo
    replace hhi : hi.Sorted (· ≤ ·) := hhi
    replace hord : ∀ a ∈ lo, ∀ b ∈ hi, a ≤ b := hord
    replace hle1 : hi.length ≤ lo.length := hle1
    replace hle2 : lo.length ≤ hi.length + 1 := hle2
    rw [SlidingMedian.erase]
    by_cases hxlo : x ∈ lo
    · have hrem : SlidingMedian.remove ⟨lo, hi⟩ x = ⟨lo.erase x, hi⟩ := by
        simp only [SlidingMedian.remove]; rw [if_pos hxlo]
      rw [hrem]
      have hlon : 0 < lo.length := List.length_pos.mpr (List.ne_nil_of_mem hxlo)
      have hlen : (lo.erase x).length = lo.length - 1 :=
        List.length_erase_of_mem hxlo
      obtain ⟨hinv, hperm⟩ := balance_spec (hlo.sublist (List.erase_sublist x lo))
        hhi (fun a ha b hb => hord a (List.mem_of_mem_erase ha) b hb)
        (by omega) (by omega)
      refine ⟨hinv, fun _ => ?_, fun hq _ => absurd hxlo hq⟩
      have p1 := (List.perm_cons_erase hxlo).symm.append_right hi
      rw [List.cons_append] at p1
      exact (hperm.cons x).trans p1
    · by_cases hxhi : x ∈ hi
      · have hrem : SlidingMedian.remove ⟨lo, hi⟩ x = ⟨lo, hi.erase x⟩ := by
          simp only [SlidingMedian.remove]; rw [if_neg hxlo, if_pos hxhi]
        rw [hrem]
        have hhin : 0 < hi.length := List.length_pos.mpr (List.ne_nil_of_mem hxhi)
        have hlen : (hi.erase x).length = hi.length - 1 :=
          List.length_erase_of_mem hxhi
        obtain ⟨hinv, hperm⟩ := balance_spec hlo
          (hhi.sublist (List.erase_sublist x hi))
          (fun a ha b hb => hord a ha b (List.mem_of_mem_erase hb))
          (by omega) (by omega)
        refine ⟨hinv, fun _ => ?_, fun _ hq => absurd hxhi hq⟩
        have p2 : List.Perm (x :: (lo ++ hi.erase x)) (lo ++ hi) := by
          refine List.Perm.trans ?_ ((List.perm_cons_erase hxhi).symm.append_left lo)
          exact List.perm_middle.symm
        exact (hperm.cons x).trans p2
      · have hrem : SlidingMedian.remove ⟨lo, hi⟩ x = ⟨lo, hi⟩ := by
          simp only [SlidingMedian.remove]; rw [if_neg hxlo, if_neg hxhi]
        rw [hrem, balance_self (s := ⟨lo, hi⟩) hle1 hle2]
        exact ⟨⟨hlo, hhi, hord, hle1, hle2⟩,
          fun hmem => (hmem.elim (fun h' => absurd h' hxlo)
            (fun h' => absurd h' hxhi)),
          fun _ _ => rfl⟩

/-- Every reachable tracker state satisfies the invariant. -/
theorem runTrackerFrom_sinv (ops : List TrackerOp) :
    ∀ s, SInv s → SInv (runTrackerFrom s ops) := by
  induction ops with
  | nil => intro s h; exact h
  | cons op ops ih =>
    intro s h
    cases op with
    | ins x => exact ih _ (sinv_insert h x).1
    | del x => exact ih _ (sinv_erase h x).1

theorem sinv_empty : SInv SlidingMedian.empty :=
  ⟨List.sorted_nil, List.sorted_nil, by simp [SlidingMedian.empty],
    by simp [SlidingMedian.empty], by simp [SlidingMedian.empty]⟩

theorem runTracker_sinv (ops : List TrackerOp) : SInv (runTracker ops) :=
  runTrackerFrom_sinv ops _ sinv_empty

/-- A state satisfying the invariant is determined by the multiset of its
elements: the sizes fix the split point and sortedness fixes the order. -/
theorem sinv_canonical {s t : SlidingMedian} (hs : SInv s) (ht : SInv t)
    (hp : List.Perm (s.lo ++ s.hi) (t.lo ++ t.hi)) : s = t := by
  obtain ⟨hs1, hs2, hs3, hs4, hs5⟩ := hs
  obtain ⟨ht1, ht2, ht3, ht4, ht5⟩ := ht
  have hsorts : (s.lo ++ s.hi).Sorted (· ≤ ·) :=
    List.pairwise_append.mpr ⟨hs1, hs2, hs3⟩
  have hsortt : (t.lo ++ t.hi).Sorted (· ≤ ·) :=
    List.pairwise_append.mpr ⟨ht1, ht2, ht3⟩
  have heq : s.lo ++ s.hi = t.lo ++ t.hi :=
    List.eq_of_perm_of_sorted hp hsorts hsortt
  have hlen : s.lo.length + s.hi.length = t.lo.length + t.hi.length := by
    have h' := hp.length_eq
    simp only [List.length_append] at h'
    exact h'
  obtain ⟨e1, e2⟩ := List.append_inj heq (by omega)
  cases s with
  | mk slo shi =>
    cases t with
    | mk tlo thi =>
      congr 1

/-- `insert x` followed immediately by `erase x` is the identity on states
satisfying the invariant. -/
theorem sinv_insert_erase {s : SlidingMedian} (h : SInv s) (x : ℤ) :
    (s.insert x).erase x = s := by
  obtain ⟨h1, hperm1⟩ := sinv_insert h x
  obtain ⟨h2, hperm2, _⟩ := sinv_erase h1 x
  have hx : x ∈ (s.insert x).lo ∨ x ∈ (s.insert x).hi := by
    have hm : x ∈ (s.insert x).lo ++ (s.insert x).hi :=
      hperm1.mem_iff.mpr (List.mem_cons_self x _)
    exact List.mem_append.mp hm
  have hchain := (hperm2 hx).trans hperm1
  exact sinv_canonical h2 h hchain.cons_inv

/-- C1 (counterexample): the demo driver on `[1,3,-1,-3,5,3,6,7]` with window
size 3 does not emit `[1, -1, -1, 3, 5, 3, 6]` — that list has seven entries,
but eight elements admit only six windows of size 3. -/
theorem c1_sliding_window_demo_counterexample :
    slidingMedians [1, 3, -1, -3, 5, 3, 6, 7] 3 ≠ [1, -1, -1, 3, 5, 3, 6] := by
  decide

/-- C1 (amended): the demo driver on `[1,3,-1,-3,5,3,6,7]` with window size 3
emits the six medians `[1, -1, -1, 3, 5, 6]`, one per full window. -/
theorem c1_sliding_window_demo :
    slidingMedians [1, 3, -1, -3, 5, 3, 6, 7] 3 = [1, -1, -1, 3, 5, 6] := by
  decide

/-- C2: on a capacity-2 cache, `put(1,1); put(2,2); get(1); put(3,3); get(2);
get(3); get(1)` returns `1`, `NOT_FOUND`, `3`, `1` from the four `get`s; just
before `put(3,3)` key 2 sits at the back of the recency list (least recently
used), and `put(3,3)` evicts exactly it. -/
theorem c2_lru_demo :
    runCacheOutputs 2
        [.put 1 1, .put 2 2, .get 1, .put 3 3, .get 2, .get 3, .get 1]
      = [1, NOT_FOUND, 3, 1]
    ∧ (runCache 2 [.put 1 1, .put 2 2, .get 1]).dll.map Prod.fst = [1, 2]
    ∧ 2 ∈ (runCache 2 [.put 1 1, .put 2 2, .get 1]).mp
    ∧ 2 ∉ (runCache 2 [.put 1 1, .put 2 2, .get 1, .put 3 3]).mp
    ∧ (runCache 2 [.put 1 1, .put 2 2, .get 1, .put 3 3]).dll.map Prod.fst
      = [3, 1] := by
  decide

/-- C3: after every sequence of insert/erase operations starting from the
empty tracker, `size(lo) == size(hi)` or `size(lo) == size(hi) + 1`, and
every value in `lo` is at most every value in `hi`. -/
theorem c3_tracker_invariant (ops : List TrackerOp) :
    ((runTracker ops).lo.length = (runTracker ops).hi.length
      ∨ (runTracker ops).lo.length = (runTracker ops).hi.length + 1)
    ∧ ∀ a ∈ (runTracker ops).lo, ∀ b ∈ (runTracker ops).hi, a ≤ b := by
  obtain ⟨-, -, h3, h4, h5⟩ := runTracker_sinv ops
  exact ⟨by omega, h3⟩

/-- C5: on any state satisfying the tracker invariant, `median()` returns the
sentinel 0 when both multisets are empty, the maximum of `lo` when
`size(lo) > size(hi)`, and otherwise the exact average of the maximum of `lo`
and the minimum of `hi` (a rational, possibly a half-integer — the `double`
arithmetic of the C++ code modelled exactly). -/
theorem c5_median_cases (s : SlidingMedian) (h : SInv s) :
    (s.lo = [] ∧ s.hi = [] → s.median = 0)
    ∧ (s.hi.length < s.lo.length →
        ∃ m, m ∈ s.lo ∧ (∀ a ∈ s.lo, a ≤ m) ∧ s.median = (m : ℚ))
    ∧ (¬(s.lo = [] ∧ s.hi = []) → s.lo.length ≤ s.hi.length →
        ∃ m n, (m ∈ s.lo ∧ ∀ a ∈ s.lo, a ≤ m)
          ∧ (n ∈ s.hi ∧ ∀ b ∈ s.hi, n ≤ b)
          ∧ s.median = ((m : ℚ) + (n : ℚ)) / 2) := by
  obtain ⟨hlo, hhi, hord, hle1, hle2⟩ := h
  refine ⟨fun he => ?_, fun hlt => ?_, fun hne hle => ?_⟩
  · rw [SlidingMedian.median, if_pos he]
  · have hlon : s.lo ≠ [] := by
      intro e; rw [e] at hlt; simp at hlt
    refine ⟨mMax s.lo, mMax_mem hlon, fun a ha => le_mMax hlo ha, ?_⟩
    rw [SlidingMedian.median, if_neg (fun he => hlon he.1), if_pos hlt]
  · have heq : s.lo.length = s.hi.length := le_antisymm hle hle1
    have hlon : s.lo ≠ [] := by
      intro e
      refine hne ⟨e, List.length_eq_zero.mp ?_⟩
      rw [e] at heq
      simpa using heq.symm
    have hhin : s.hi ≠ [] := by
      intro e
      rw [e] at heq
      exact hlon (List.length_eq_zero.mp (by simpa using heq))
    refine ⟨mMax s.lo, mMin s.hi,
      ⟨mMax_mem hlon, fun a ha => le_mMax hlo ha⟩,
      ⟨mMin_mem hhin, fun b hb => mMin_le hhi hb⟩, ?_⟩
    rw [SlidingMedian.median, if_neg hne, if_neg (by omega)]

/-- C5 witness: the three cases evaluated on the concrete invariant state
`lo = [1]`, `hi = [2]`. -/
theorem c5_median_cases_witness :
    SInv ⟨[1], [2]⟩
    ∧ (((⟨[1], [2]⟩ : SlidingMedian).lo = [] ∧ (⟨[1], [2]⟩ : SlidingMedian).hi = [] →
          (⟨[1], [2]⟩ : SlidingMedian).median = 0)
      ∧ ((⟨[1], [2]⟩ : SlidingMedian).hi.length < (⟨[1], [2]⟩ : SlidingMedian).lo.length →
          ∃ m, m ∈ (⟨[1], [2]⟩ : SlidingMedian).lo
            ∧ (∀ a ∈ (⟨[1], [2]⟩ : SlidingMedian).lo, a ≤ m)
            ∧ (⟨[1], [2]⟩ : SlidingMedian).median = (m : ℚ))
      ∧ (¬((⟨[1], [2]⟩ : SlidingMedian).lo = [] ∧ (⟨[1], [2]⟩ : SlidingMedian).hi = []) →
          (⟨[1], [2]⟩ : SlidingMedian).lo.length ≤ (⟨[1], [2]⟩ : SlidingMedian).hi.length →
          ∃ m n, (m ∈ (⟨[1], [2]⟩ : SlidingMedian).lo
              ∧ ∀ a ∈ (⟨[1], [2]⟩ : SlidingMedian).lo, a ≤ m)
            ∧ (n ∈ (⟨[1], [2]⟩ : SlidingMedian).hi
              ∧ ∀ b ∈ (⟨[1], [2]⟩ : SlidingMedian).hi, n ≤ b)
            ∧ (⟨[1], [2]⟩ : SlidingMedian).median = ((m : ℚ) + (n : ℚ)) / 2)) :=
  ⟨⟨by decide, by decide, by decide, by decide, by decide⟩,
    c5_median_cases ⟨[1], [2]⟩ ⟨by decide, by decide, by decide, by decide, by decide⟩⟩

/-- C6: on every reachable tracker state, `insert x` followed immediately by
`erase x` returns the tracker to its prior state (hence same sizes, same
`lo`/`hi` contents, same `median()`). -/
theorem c6_insert_erase_roundtrip (ops : List TrackerOp) (x : ℤ) :
    ((runTracker ops).insert x).erase x = runTracker ops :=
  sinv_insert_erase (runTracker_sinv ops) x

/-- C9: erasing a value present in neither multiset of a reachable tracker
state is a no-op: the state (hence size and median) is unchanged, and no
failure is possible (`erase` is a total function). -/
theorem c9_erase_absent_noop (ops : List TrackerOp) (x : ℤ)
    (h1 : x ∉ (runTracker ops).lo) (h2 : x ∉ (runTracker ops).hi) :
    (runTracker ops).erase x = runTracker ops :=
  (sinv_erase (runTracker_sinv ops) x).2.2 h1 h2

/-- C9 witness: erasing the absent value 5 after inserting 1. -/
theorem c9_erase_absent_noop_witness :
    (5 : ℤ) ∉ (runTracker [TrackerOp.ins 1]).lo
    ∧ (5 : ℤ) ∉ (runTracker [TrackerOp.ins 1]).hi
    ∧ (runTracker [TrackerOp.ins 1]).erase 5 = runTracker [TrackerOp.ins 1] :=
  ⟨by decide, by decide,
    c9_erase_absent_noop [TrackerOp.ins 1] 5 (by decide) (by decide)⟩

/-- C7: `insert x` places `x` into `lo` exactly when `lo` is empty or
`x <= max-of-lo` (and otherwise into `hi`), and when the size invariant held
before the call the two rebalancing loops move at most one element between
the multisets: the balanced state is the placed state itself, or the placed
state after a single lo-to-hi move, or after a single hi-to-lo move. -/
theorem c7_insert_placement_one_move (s : SlidingMedian) (x : ℤ)
    (hsz : s.hi.length ≤ s.lo.length ∧ s.lo.length ≤ s.hi.length + 1) :
    ((s.place x).hi = s.hi ∧ List.Perm (s.place x).lo (x :: s.lo)
        ↔ (s.lo = [] ∨ x ≤ mMax s.lo))
    ∧ ((s.place x).lo = s.lo ∧ List.Perm (s.place x).hi (x :: s.hi)
        ↔ ¬(s.lo = [] ∨ x ≤ mMax s.lo))
    ∧ (s.insert x = s.place x ∨ s.insert x = moveLoToHi (s.place x)
        ∨ s.insert x = moveHiToLo (s.place x)) := by
  obtain ⟨hsz1, hsz2⟩ := hsz
  cases s with
  | mk lo hi =>
    replace hsz1 : hi.length ≤ lo.length := hsz1
    replace hsz2 : lo.length ≤ hi.length + 1 := hsz2
    by_cases hc : lo = [] ∨ x ≤ mMax lo
    · have hplace : SlidingMedian.place ⟨lo, hi⟩ x = ⟨msInsert x lo, hi⟩ := by
        simp only [SlidingMedian.place]; rw [if_pos hc]
      rw [SlidingMedian.insert, hplace]
      refine ⟨⟨fun _ => hc, fun _ => ⟨rfl, msInsert_perm x lo⟩⟩,
        ⟨fun h12 => ?_, fun hq => absurd hc hq⟩, ?_⟩
      · have h1' : msInsert x lo = lo := h12.1
        have he := congrArg List.length h1'
        rw [msInsert_length] at he
        exact absurd he (by omega)
      · by_cases hsize : lo.length = hi.length + 1
        · refine Or.inr (Or.inl ?_)
          simp only [SlidingMedian.balance, moveLoToHi]
          rw [balanceLo_step _ _ (by simp only [msInsert_length]; omega)]
          rw [balanceHi_self _ _
            (by simp only [List.length_dropLast, msInsert_length]; omega)]
        · exact Or.inl (balance_self (s := ⟨msInsert x lo, hi⟩)
            (by simp only [msInsert_length]; omega)
            (by simp only [msInsert_length]; omega))
    · have hplace : SlidingMedian.place ⟨lo, hi⟩ x = ⟨lo, msInsert x hi⟩ := by
        simp only [SlidingMedian.place]; rw [if_neg hc]
      rw [SlidingMedian.insert, hplace]
      refine ⟨⟨fun h12 => ?_, fun hq => absurd hq hc⟩,
        ⟨fun _ => hc, fun _ => ⟨rfl, msInsert_perm x hi⟩⟩, ?_⟩
      · have h1' : msInsert x hi = hi := h12.1
        have he := congrArg List.length h1'
        rw [msInsert_length] at he
        exact absurd he (by omega)
      · by_cases hsize : lo.length = hi.length
        · refine Or.inr (Or.inr ?_)
          simp only [SlidingMedian.balance, moveHiToLo]
          rw [balanceLo_self _ _ (by simp only [msInsert_length]; omega)]
          rw [balanceHi_step _ _ (by simp only [msInsert_length]; omega)]
        · exact Or.inl (balance_self (s := ⟨lo, msInsert x hi⟩)
            (by simp only [msInsert_length]; omega)
            (by simp only [msInsert_length]; omega))

/-- C7 witness: placement and the one-move bound evaluated on the concrete
state `lo = [1]`, `hi = [2]` with `x = 3`. -/
theorem c7_insert_placement_one_move_witness :
    ((⟨[1], [2]⟩ : SlidingMedian).hi.length ≤ (⟨[1], [2]⟩ : SlidingMedian).lo.length
      ∧ (⟨[1], [2]⟩ : SlidingMedian).lo.length ≤ (⟨[1], [2]⟩ : SlidingMedian).hi.length + 1)
    ∧ (((SlidingMedian.place ⟨[1], [2]⟩ 3).hi = (⟨[1], [2]⟩ : SlidingMedian).hi
          ∧ List.Perm (SlidingMedian.place ⟨[1], [2]⟩ 3).lo (3 :: (⟨[1], [2]⟩ : SlidingMedian).lo)
        ↔ ((⟨[1], [2]⟩ : SlidingMedian).lo = [] ∨ (3 : ℤ) ≤ mMax (⟨[1], [2]⟩ : SlidingMedian).lo))
      ∧ ((SlidingMedian.place ⟨[1], [2]⟩ 3).lo = (⟨[1], [2]⟩ : SlidingMedian).lo
          ∧ List.Perm (SlidingMedian.place ⟨[1], [2]⟩ 3).hi (3 :: (⟨[1], [2]⟩ : SlidingMedian).hi)
        ↔ ¬((⟨[1], [2]⟩ : SlidingMedian).lo = [] ∨ (3 : ℤ) ≤ mMax (⟨[1], [2]⟩ : SlidingMedian).lo))
      ∧ (SlidingMedian.insert ⟨[1], [2]⟩ 3 = SlidingMedian.place ⟨[1], [2]⟩ 3
        ∨ SlidingMedian.insert ⟨[1], [2]⟩ 3 = moveLoToHi (SlidingMedian.place ⟨[1], [2]⟩ 3)
        ∨ SlidingMedian.insert ⟨[1], [2]⟩ 3 = moveHiToLo (SlidingMedian.place ⟨[1], [2]⟩ 3))) :=
  ⟨⟨by decide, by decide⟩,
    c7_insert_placement_one_move ⟨[1], [2]⟩ 3 ⟨by decide, by decide⟩⟩

/-! ### The cache invariant -/

/-- When `key` occurs among the keys of `l`, `find?` locates a node carrying
`key` and `eraseP` removes exactly that node. -/
theorem find_eraseP_spec (key : ℤ) :
    ∀ l : List (ℤ × ℤ), key ∈ l.map Prod.fst →
      ∃ e : ℤ × ℤ, l.find? (fun e => e.1 == key) = some e ∧ e.1 = key
        ∧ List.Perm l (e :: l.eraseP (fun e => e.1 == key)) := by
  intro l
  induction l with
  | nil => intro h'; simp at h'
  | cons a t ih =>
    intro hk
    by_cases ha : a.1 = key
    · refine ⟨a, ?_, ha, ?_⟩
      · rw [List.find?_cons_of_pos _ (by simp [ha])]
      · rw [List.eraseP_cons_of_pos (by simp [ha])]
    · have hk' : key ∈ t.map Prod.fst := by
        simp only [List.map_cons, List.mem_cons] at hk
        exact hk.resolve_left (fun h' => ha h'.symm)
      obtain ⟨e, hf, he, hp⟩ := ih hk'
      refine ⟨e, ?_, he, ?_⟩
      · rw [List.find?_cons_of_neg _ (by simp [ha]), hf]
      · rw [List.eraseP_cons_of_neg (by simp [ha])]
        exact (hp.cons a).trans (List.Perm.swap e a _)

/-- `get` preserves the cache invariant and the capacity. -/
theorem cinv_get {c : LRUCache} (h : CInv c) (key : ℤ) :
    CInv (c.get key).1 ∧ (c.get key).1.cap = c.cap := by
  obtain ⟨h1, h2, h3, h4⟩ := h
  by_cases hk : key ∈ c.mp
  · obtain ⟨e, hf, he, hp⟩ := find_eraseP_spec key c.dll ((h2 key).mp hk)
    have hget : (c.get key).1
        = ⟨c.cap, e :: c.dll.eraseP (fun e => e.1 == key), c.mp⟩ := by
      simp only [LRUCache.get, LRUCache.node, if_pos hk, hf]
    rw [hget]
    refine ⟨⟨?_, ?_, ?_, ?_⟩, rfl⟩
    · exact (hp.map Prod.fst).nodup h1
    · intro k; rw [h2 k]; exact (hp.map Prod.fst).mem_iff
    · rw [h3]; exact hp.length_eq
    · rw [show (e :: c.dll.eraseP fun e => e.1 == key).length = c.dll.length
        from hp.length_eq.symm]
      exact h4
  · have hget : (c.get key).1 = c := by
      simp only [LRUCache.get, if_neg hk]
    rw [hget]
    exact ⟨⟨h1, h2, h3, h4⟩, rfl⟩

/-- `put` preserves the cache invariant and the capacity, for a cache of
positive capacity. -/
theorem cinv_put {c : LRUCache} (h : CInv c) (hcap : 1 ≤ c.cap)
    (key value : ℤ) :
    CInv (c.put key value) ∧ (c.put key value).cap = c.cap := by
  obtain ⟨h1, h2, h3, h4⟩ := h
  by_cases hk : key ∈ c.mp
  · obtain ⟨e, hf, he, hp⟩ := find_eraseP_spec key c.dll ((h2 key).mp hk)
    have hput : c.put key value
        = ⟨c.cap, (key, value) :: c.dll.eraseP (fun e => e.1 == key), c.mp⟩ := by
      simp only [LRUCache.put, if_pos hk]
    rw [hput]
    have hkp : List.Perm (c.dll.map Prod.fst)
        (key :: (c.dll.eraseP (fun e => e.1 == key)).map Prod.fst) := by
      have h' := hp.map Prod.fst
      rw [List.map_cons, he] at h'
      exact h'
    refine ⟨⟨?_, ?_, ?_, ?_⟩, rfl⟩
    · rw [List.map_cons]
      exact hkp.nodup h1
    · intro k
      rw [h2 k, List.map_cons]
      exact hkp.mem_iff
    · rw [h3, hp.length_eq]
      simp
    · rw [show ((key, value) :: c.dll.eraseP fun e => e.1 == key).length
        = c.dll.length from by rw [hp.length_eq]; simp]
      exact h4
  · have hknot : key ∉ c.dll.map Prod.fst := fun hmem => hk ((h2 key).mpr hmem)
    by_cases hfull : (c.dll.length : ℤ) = c.cap
    · have hne : c.dll ≠ [] := by
        intro e'; rw [e'] at hfull; simp at hfull; omega
      have hput : c.put key value
          = ⟨c.cap, (key, value) :: c.dll.dropLast,
              insert key (c.mp.erase (c.dll.getLast hne).1)⟩ := by
        simp only [LRUCache.put, if_neg hk, if_pos hfull,
          List.getLast?_eq_getLast c.dll hne]
      rw [hput]
      have hsplit : c.dll.map Prod.fst
          = c.dll.dropLast.map Prod.fst ++ [(c.dll.getLast hne).1] := by
        conv_lhs => rw [← List.dropLast_append_getLast hne]
        simp
      have h1' : (c.dll.dropLast.map Prod.fst).Nodup
          ∧ (c.dll.getLast hne).1 ∉ c.dll.dropLast.map Prod.fst := by
        rw [hsplit, List.nodup_append] at h1
        exact ⟨h1.1, fun hmem => h1.2.2 hmem (List.mem_singleton_self _)⟩
      have hlast_mp : (c.dll.getLast hne).1 ∈ c.mp := by
        refine (h2 _).mpr ?_
        rw [hsplit, List.mem_append, List.mem_singleton]
        exact Or.inr rfl
      have hkey_drop : key ∉ c.dll.dropLast.map Prod.fst := by
        intro hmem
        refine hknot ?_
        rw [hsplit, List.mem_append]
        exact Or.inl hmem
      have hlen_drop : c.dll.dropLast.length = c.dll.length - 1 :=
        List.length_dropLast c.dll
      have hdlen : 0 < c.dll.length := List.length_pos.mpr hne
      refine ⟨⟨?_, ?_, ?_, ?_⟩, rfl⟩
      · rw [List.map_cons, List.nodup_cons]
        exact ⟨hkey_drop, h1'.1⟩
      · intro k
        rw [Finset.mem_insert, Finset.mem_erase, h2 k, hsplit,
          List.map_cons, List.mem_cons, List.mem_append, List.mem_singleton]
        constructor
        · rintro (rfl | ⟨hne', hmem | rfl⟩)
          · exact Or.inl rfl
          · exact Or.inr hmem
          · exact absurd rfl hne'
        · rintro (rfl | hmem)
          · exact Or.inl rfl
          · refine Or.inr ⟨?_, Or.inl hmem⟩
            rintro rfl
            exact h1'.2 hmem
      · have hkey_erase : key ∉ c.mp.erase (c.dll.getLast hne).1 :=
          fun hmem => hk (Finset.mem_of_mem_erase hmem)
        rw [Finset.card_insert_of_not_mem hkey_erase,
          Finset.card_erase_of_mem hlast_mp, h3]
        simp only [List.length_cons, hlen_drop]
      · simp only [List.length_cons, hlen_drop]
        rw [show c.dll.length - 1 + 1 = c.dll.length from by omega]
        rw [hfull]
    · have hput : c.put key value
          = ⟨c.cap, (key, value) :: c.dll, insert key c.mp⟩ := by
        simp only [LRUCache.put, if_neg hk, if_neg hfull]
      rw [hput]
      refine ⟨⟨?_, ?_, ?_, ?_⟩, rfl⟩
      · rw [List.map_cons, List.nodup_cons]
        exact ⟨hknot, h1⟩
      · intro k
        rw [Finset.mem_insert, h2 k, List.map_cons, List.mem_cons]
      · rw [Finset.card_insert_of_not_mem hk, h3]
        simp
      · simp only [List.length_cons]
        push_cast
        push_cast at h4 hfull
        omega

/-- Running any operation sequence preserves the invariant and capacity. -/
theorem runCacheAux_cinv :
    ∀ (ops : List CacheOp) (c : LRUCache) (outs : List ℤ),
      CInv c → 1 ≤ c.cap →
      CInv (runCacheAux c outs ops).1 ∧ (runCacheAux c outs ops).1.cap = c.cap := by
  intro ops
  induction ops with
  | nil => intro c outs h hc; exact ⟨h, rfl⟩
  | cons op ops ih =>
    intro c outs h hc
    cases op with
    | get k =>
      obtain ⟨h', hcap'⟩ := cinv_get h k
      obtain ⟨h'', hcap''⟩ := ih _ _ h' (by rw [hcap']; exact hc)
      exact ⟨h'', by rw [runCacheAux] at *; rw [hcap'', hcap']⟩
    | put k v =>
      obtain ⟨h', hcap'⟩ := cinv_put h hc k v
      obtain ⟨h'', hcap''⟩ := ih _ _ h' (by rw [hcap']; exact hc)
      exact ⟨h'', by rw [runCacheAux] at *; rw [hcap'', hcap']⟩

theorem cinv_mkLRU (cap : ℤ) (hcap : 1 ≤ cap) : CInv (mkLRU cap) := by
  refine ⟨?_, ?_, ?_, ?_⟩ <;> simp [mkLRU]
  omega

theorem runCache_cinv (cap : ℤ) (hcap : 1 ≤ cap) (ops : List CacheOp) :
    CInv (runCache cap ops) ∧ (runCache cap ops).cap = cap :=
  runCacheAux_cinv ops (mkLRU cap) [] (cinv_mkLRU cap hcap) hcap

/-- C4: for every positive capacity and every operation sequence, each key in
the index has exactly one entry on the recency list and vice versa, and the
size of the index equals the size of the recency list and never exceeds the
capacity. -/
theorem c4_lru_invariant (cap : ℤ) (hcap : 1 ≤ cap) (ops : List CacheOp) :
    ((runCache cap ops).dll.map Prod.fst).Nodup
    ∧ (∀ k, k ∈ (runCache cap ops).mp ↔ k ∈ (runCache cap ops).dll.map Prod.fst)
    ∧ (runCache cap ops).mp.card = (runCache cap ops).dll.length
    ∧ ((runCache cap ops).dll.length : ℤ) ≤ cap := by
  obtain ⟨⟨h1, h2, h3, h4⟩, hc⟩ := runCache_cinv cap hcap ops
  exact ⟨h1, h2, h3, by rw [hc] at h4; exact h4⟩

/-- C4 witness: the invariant evaluated after `put(1,1)` on a capacity-1
cache. -/
theorem c4_lru_invariant_witness :
    (1 : ℤ) ≤ 1
    ∧ (((runCache 1 [CacheOp.put 1 1]).dll.map Prod.fst).Nodup
      ∧ (∀ k, k ∈ (runCache 1 [CacheOp.put 1 1]).mp
          ↔ k ∈ (runCache 1 [CacheOp.put 1 1]).dll.map Prod.fst)
      ∧ (runCache 1 [CacheOp.put 1 1]).mp.card
          = (runCache 1 [CacheOp.put 1 1]).dll.length
      ∧ ((runCache 1 [CacheOp.put 1 1]).dll.length : ℤ) ≤ 1) :=
  ⟨by decide, c4_lru_invariant 1 (by decide) [CacheOp.put 1 1]⟩

/-- C8: on every reachable cache state (positive capacity), `get` of a key
with no entry on the recency list returns `NOT_FOUND` and leaves the whole
state — keys, values and recency order — unchanged; the miss is an ordinary
return value of the total function `get`, not a failure. -/
theorem c8_get_missing (cap : ℤ) (hcap : 1 ≤ cap) (ops : List CacheOp)
    (key : ℤ) (habs : key ∉ (runCache cap ops).dll.map Prod.fst) :
    (runCache cap ops).get key = (runCache cap ops, NOT_FOUND) := by
  obtain ⟨⟨h1, h2, h3, h4⟩, hc⟩ := runCache_cinv cap hcap ops
  have hk : key ∉ (runCache cap ops).mp := fun hk' => habs ((h2 key).mp hk')
  simp only [LRUCache.get, if_neg hk]

/-- C8 witness: a miss on key 2 after `put(1,1)` on a capacity-2 cache. -/
theorem c8_get_missing_witness :
    (1 : ℤ) ≤ 2
    ∧ (2 : ℤ) ∉ (runCache 2 [CacheOp.put 1 1]).dll.map Prod.fst
    ∧ (runCache 2 [CacheOp.put 1 1]).get 2 = (runCache 2 [CacheOp.put 1 1], NOT_FOUND) :=
  ⟨by decide, by decide,
    c8_get_missing 2 (by decide) [CacheOp.put 1 1] 2 (by decide)⟩

/-- C10: the constructor stores its capacity argument unvalidated; with
capacity 0 the first `put` of any new key satisfies the eviction-branch
conditions with an empty recency list (so `dll.back()` is evaluated on an
empty list — undefined behaviour in C++); and the guard that the eviction
branch only runs on a non-empty list does hold whenever the capacity is at
least 1. -/
theorem c10_capacity_unvalidated :
    (∀ capacity : ℤ, mkLRU capacity = ⟨capacity, [], ∅⟩)
    ∧ (∀ key : ℤ, key ∉ (mkLRU 0).mp
        ∧ ((mkLRU 0).dll.length : ℤ) = (mkLRU 0).cap ∧ (mkLRU 0).dll = [])
    ∧ (∀ c : LRUCache, 1 ≤ c.cap → ∀ key : ℤ, key ∉ c.mp →
        ((c.dll.length : ℤ) = c.cap → c.dll ≠ [])) := by
  refine ⟨fun _ => rfl, fun key => ⟨by simp [mkLRU], by simp [mkLRU], rfl⟩, ?_⟩
  intro c hcap key hk hlen hnil
  rw [hnil] at hlen
  simp at hlen
  omega

/-- C10 witness: the constructor at capacity 7, the capacity-0 conditions at
key 5, and the guard at the concrete one-entry capacity-1 cache with new
key 2. -/
theorem c10_capacity_unvalidated_witness :
    mkLRU 7 = ⟨7, [], ∅⟩
    ∧ ((5 : ℤ) ∉ (mkLRU 0).mp
        ∧ ((mkLRU 0).dll.length : ℤ) = (mkLRU 0).cap ∧ (mkLRU 0).dll = [])
    ∧ (1 : ℤ) ≤ (1 : ℤ)
    ∧ ((LRUCache.mk 1 [(1, 1)] {1}).dll.length : ℤ) = (LRUCache.mk 1 [(1, 1)] {1}).cap
    ∧ (LRUCache.mk 1 [(1, 1)] {1}).dll ≠ [] :=
  ⟨c10_capacity_unvalidated.1 7, c10_capacity_unvalidated.2.1 5,
    by decide, by decide,
    c10_capacity_unvalidated.2.2 (LRUCache.mk 1 [(1, 1)] {1}) (by decide) 2
      (by decide) (by decide)⟩

end CPrograms
